import Mathlib

/-!
Shallow embedding of the audit-bot concurrent audit scheduler:
the dedup store (`OpenAIAuditor`: loadAuditedContracts / isAudited /
recordAuditResult / saveAuditedContracts), the auditor pool
(`AuditorPool`: getAvailableAuditor / releaseAuditor / auditContract),
and the statistics aggregator (`AuditStatistics.getStats`).

JavaScript strings are modelled as lists of UTF-16 code units
(`JSString := List Nat`); JS `Set`s as insertion-ordered duplicate-free
lists; the JSON backing files as parsed contents (`StoreFile`), where
`malformed` marks a file on which `JSON.parse` throws.
-/

namespace AuditBot

/-- A JavaScript string: its sequence of UTF-16 code units. -/
abbrev JSString := List Nat

/-- One code unit of `String.prototype.toLowerCase` restricted to the
ASCII range used by hex addresses. -/
def lowerUnit (u : Nat) : Nat := if 65 ≤ u ∧ u ≤ 90 then u + 32 else u

/-- `address.toLowerCase()` as used for address normalization. -/
def toLowerCase (s : JSString) : JSString := s.map lowerUnit

theorem lowerUnit_idem (u : Nat) : lowerUnit (lowerUnit u) = lowerUnit u := by
  by_cases h : 65 ≤ u ∧ u ≤ 90
  · have hu : lowerUnit u = u + 32 := by rw [lowerUnit, if_pos h]
    rw [hu, lowerUnit, if_neg (by omega)]
  · have hu : lowerUnit u = u := by rw [lowerUnit, if_neg h]
    rw [hu, hu]

theorem toLowerCase_idem (s : JSString) : toLowerCase (toLowerCase s) = toLowerCase s := by
  unfold toLowerCase
  rw [List.map_map]
  exact List.map_congr_left (fun u _ => lowerUnit_idem u)

/-- One value of the per-address object stored in `audited-contracts.json`
(new object format). `hasVulnerabilities` is `none` when the JSON field is
`null`; missing `auditedAt` / `errorMessage` fields are `none`; a missing
`failed` field reads as falsy, i.e. `false`. -/
structure AuditRecord where
  hasVulnerabilities : Option Bool
  vulnerabilities : List JSString
  auditedAt : Option Nat
  failed : Bool
  errorMessage : Option JSString
deriving DecidableEq

/-- The record produced by converting one legacy array entry:
`{ hasVulnerabilities: false, vulnerabilities: [] }`. -/
def legacyRecord : AuditRecord :=
  { hasVulnerabilities := some false, vulnerabilities := [], auditedAt := none,
    failed := false, errorMessage := none }

/-- Parsed content of one backing file. `malformed` is a file on which
`JSON.parse` (or the subsequent field access) throws. -/
inductive StoreFile where
  | malformed : StoreFile
  | arrayFmt (addrs : List JSString) : StoreFile
  | objFmt (entries : List (JSString × AuditRecord)) : StoreFile
deriving DecidableEq

/-- JS object property read `obj[k]` on a parsed (duplicate-free) JSON
object. -/
def objGet : List (JSString × AuditRecord) → JSString → Option AuditRecord
  | [], _ => none
  | (k2, v) :: rest, k => if k2 = k then some v else objGet rest k

/-- JS object property write `obj[k] = v`: updates the entry in place when
the key exists, otherwise appends it (JS property-insertion order). -/
def objSet : List (JSString × AuditRecord) → JSString → AuditRecord → List (JSString × AuditRecord)
  | [], k, v => [(k, v)]
  | (k2, v2) :: rest, k, v =>
      if k2 = k then (k, v) :: rest else (k2, v2) :: objSet rest k v

theorem objGet_objSet (m : List (JSString × AuditRecord)) (k k' : JSString) (v : AuditRecord) :
    objGet (objSet m k v) k' = if k = k' then some v else objGet m k' := by
  induction m with
  | nil =>
    by_cases h : k = k' <;> simp [objSet, objGet, h]
  | cons p rest ih =>
    obtain ⟨k2, v2⟩ := p
    by_cases h2 : k2 = k
    · subst h2
      by_cases h : k2 = k' <;> simp [objSet, objGet, h]
    · by_cases h : k2 = k'
      · subst h
        have hk : ¬ k = k2 := fun hk => h2 hk.symm
        simp [objSet, objGet, h2, hk]
      · simp [objSet, objGet, h2, h, ih]

/-- JS `Set.prototype.add` on an insertion-ordered duplicate-free list. -/
def setAdd (s : List JSString) (x : JSString) : List JSString :=
  if x ∈ s then s else s ++ [x]

theorem mem_setAdd (s : List JSString) (x y : JSString) :
    y ∈ setAdd s x ↔ y ∈ s ∨ y = x := by
  unfold setAdd
  split
  · rename_i h
    constructor
    · exact fun hy => Or.inl hy
    · rintro (hy | rfl)
      · exact hy
      · exact h
  · simp [List.mem_append]

theorem mem_setAdd_self (s : List JSString) (x : JSString) : x ∈ setAdd s x := by
  rw [mem_setAdd]; exact Or.inr rfl

/-- In-memory and on-disk state of one `OpenAIAuditor` dedup store:
the two JS `Set`s, the parsed content of `audited-contracts.json`
(`none` when the file does not exist) and the parsed contents of the
numbered overflow files `audited-contracts-<n>.json` in directory order. -/
structure AuditorState where
  auditedContracts : List JSString
  auditingContracts : List JSString
  mainFile : Option StoreFile
  shardFiles : List StoreFile
deriving DecidableEq

/-- Helper for `isAudited`: insert the normalized address into the
in-memory `auditedContracts` set. -/
def addAudited (st : AuditorState) (norm : JSString) : AuditorState :=
  { st with auditedContracts := setAdd st.auditedContracts norm }

/-- The split-file scan of `OpenAIAuditor.isAudited` (lines 240-259): the
shard files are read in order; an object-format shard holding the key
returns `true` and caches the address; an array-format shard is skipped
(`typeof === object and not Array.isArray` excludes arrays); a malformed
shard throws, the surrounding catch logs and the function returns
`false` with the set unchanged. -/
def shardScan (st : AuditorState) (norm : JSString) : List StoreFile → Bool × AuditorState
  | [] => (false, st)
  | StoreFile.malformed :: _ => (false, st)
  | StoreFile.arrayFmt _ :: rest => shardScan st norm rest
  | StoreFile.objFmt es :: rest =>
      if (objGet es norm).isSome then (true, addAudited st norm)
      else shardScan st norm rest

/-- `OpenAIAuditor.isAudited` after address normalization: in-memory set
first, then the main file (legacy array membership or object key), then
the numbered shard files. A malformed main file throws before the shard
scan, so the catch returns `false` immediately. Returns the result
together with the updated state (a file hit caches the address in the
in-memory set). `fileCheck` is the direct-file part, matching on the
parsed main-file content. -/
def fileCheck (st : AuditorState) (norm : JSString) : Option StoreFile → Bool × AuditorState
  | some StoreFile.malformed => (false, st)
  | some (StoreFile.arrayFmt addrs) =>
      if norm ∈ addrs then (true, addAudited st norm)
      else shardScan st norm st.shardFiles
  | some (StoreFile.objFmt es) =>
      if (objGet es norm).isSome then (true, addAudited st norm)
      else shardScan st norm st.shardFiles
  | none => shardScan st norm st.shardFiles

/-- `isAudited` body: in-memory set first, then the file check. -/
def isAuditedNorm (st : AuditorState) (norm : JSString) : Bool × AuditorState :=
  if norm ∈ st.auditedContracts then (true, st) else fileCheck st norm st.mainFile

/-- `OpenAIAuditor.isAudited(address)`: normalizes with `toLowerCase`
and looks the normalized address up. -/
def isAudited (st : AuditorState) (address : JSString) : Bool × AuditorState :=
  isAuditedNorm st (toLowerCase address)

/-- The legacy-to-object conversion at the top of
`OpenAIAuditor.recordAuditResult`:
`parsed.forEach(addr => auditedData[addr] = { hasVulnerabilities: false, vulnerabilities: [] })`. -/
def convertLegacy (addrs : List JSString) : List (JSString × AuditRecord) :=
  addrs.foldl (fun m addr => objSet m addr legacyRecord) []

/-- The `auditedData` object `recordAuditResult` starts from: the parsed
main file, converted from the legacy array format if needed; a missing
or malformed file yields the empty object (inner catch). -/
def parsedData : Option StoreFile → List (JSString × AuditRecord)
  | some (StoreFile.arrayFmt addrs) => convertLegacy addrs
  | some (StoreFile.objFmt es) => es
  | _ => []

/-- The record `recordAuditResult` writes for the address. -/
def newAuditRecord (hasVulnerabilities : Bool) (vulnerabilityNames : List JSString)
    (failed : Bool) (errorMessage : Option JSString) (now : Nat) : AuditRecord :=
  { hasVulnerabilities := if failed then none else some hasVulnerabilities,
    vulnerabilities := if failed then [] else vulnerabilityNames,
    auditedAt := some now,
    failed := failed,
    errorMessage := if failed then errorMessage else none }

/-- `OpenAIAuditor.recordAuditResult` with an explicit file-system
outcome for the final `fs.writeFileSync` (`writeFails = true` means the
write raises an I/O error). Returns the new state, the number of write
attempts made, and whether any error is surfaced to the caller.
Skip guard (lines 312-321): an existing record is only protected when
the incoming write is non-failed and the existing record is non-failed;
otherwise the new record overwrites it. The in-memory set is updated
before the write; a throwing write is swallowed by the outer catch, so
no error ever surfaces. The skip guard is factored out as `skipWrite`. -/
def skipWrite (st : AuditorState) (norm : JSString) (failed : Bool) : Bool :=
  match objGet (parsedData st.mainFile) norm with
  | some existing => !failed && !existing.failed
  | none => false

/-- `OpenAIAuditor.recordAuditResult` proper, see `skipWrite`. -/
def recordAuditResultFallible (st : AuditorState) (address : JSString)
    (hasVulnerabilities : Bool) (vulnerabilityNames : List JSString)
    (failed : Bool) (errorMessage : Option JSString) (now : Nat)
    (writeFails : Bool) : AuditorState × Nat × Bool :=
  let norm := toLowerCase address
  let auditedData := parsedData st.mainFile
  if skipWrite st norm failed then (st, 0, false)
  else
    let rec0 := newAuditRecord hasVulnerabilities vulnerabilityNames failed errorMessage now
    let auditedData2 := objSet auditedData norm rec0
    let st2 := { st with auditedContracts := setAdd st.auditedContracts norm }
    if writeFails then (st2, 1, false)
    else ({ st2 with mainFile := some (StoreFile.objFmt auditedData2) }, 1, false)

/-- `OpenAIAuditor.recordAuditResult` when the file write succeeds. -/
def recordAuditResult (st : AuditorState) (address : JSString)
    (hasVulnerabilities : Bool) (vulnerabilityNames : List JSString)
    (failed : Bool) (errorMessage : Option JSString) (now : Nat) : AuditorState :=
  (recordAuditResultFallible st address hasVulnerabilities vulnerabilityNames
    failed errorMessage now false).1

/-- `OpenAIAuditor.saveAuditedContracts` with an explicit file-system
outcome: writes `Array.from(this.auditedContracts)` (the legacy array
format) over the main file; a throwing write is swallowed by the catch.
Returns the new state, the write-attempt count and whether an error is
surfaced. -/
def saveAuditedContractsFallible (st : AuditorState) (writeFails : Bool) :
    AuditorState × Nat × Bool :=
  if writeFails then (st, 1, false)
  else ({ st with mainFile := some (StoreFile.arrayFmt st.auditedContracts) }, 1, false)

/-- Fold adding every (lowercased) address of a list to the set. -/
def addAllLower (s : List JSString) (addrs : List JSString) : List JSString :=
  addrs.foldl (fun acc addr => setAdd acc (toLowerCase addr)) s

/-- The shard-file loop of `OpenAIAuditor.loadAuditedContracts`
(lines 160-175): object-format shards contribute their keys, array-format
shards are skipped, a malformed shard throws (result `none`), which the
outer catch turns into an empty set. -/
def loadShardsAux (acc : List JSString) : List StoreFile → Option (List JSString)
  | [] => some acc
  | StoreFile.malformed :: _ => none
  | StoreFile.arrayFmt _ :: rest => loadShardsAux acc rest
  | StoreFile.objFmt es :: rest => loadShardsAux (addAllLower acc (es.map Prod.fst)) rest

/-- `OpenAIAuditor.loadAuditedContracts`: rebuilds the in-memory set from
the main file (either format) and then every shard file; any throw
anywhere resets the set to empty (the catch at line 180). -/
def loadAuditedContracts (st : AuditorState) : AuditorState :=
  let mainRes : Option (List JSString) :=
    match st.mainFile with
    | none => some []
    | some StoreFile.malformed => none
    | some (StoreFile.arrayFmt addrs) => some (addAllLower [] addrs)
    | some (StoreFile.objFmt es) => some (addAllLower [] (es.map Prod.fst))
  let res : Option (List JSString) :=
    match mainRes with
    | none => none
    | some s => loadShardsAux s st.shardFiles
  { st with auditedContracts := res.getD [] }

/-- Reason attached to a skipped result of `OpenAIAuditor.auditContract`. -/
inductive SkipReason where
  | alreadyAudited : SkipReason
  | auditInProgress : SkipReason
deriving DecidableEq

/-- Outcome of the synchronous prefix of `OpenAIAuditor.auditContract`
(lines 377-404): either an early skipped return, or the point where the
address has been added to `auditingContracts` and the audit proper is
about to start. -/
inductive PrefixResult where
  | skip (reason : SkipReason) (st : AuditorState) : PrefixResult
  | proceed (st : AuditorState) : PrefixResult
deriving DecidableEq

/-- The synchronous prefix of `OpenAIAuditor.auditContract`: in-memory
`auditedContracts` check, then the `auditingContracts` in-flight check,
then the direct file check via `isAudited` (which caches a hit, and the
caller adds the address again), and finally the check-then-add of the
address into `auditingContracts` before the audit is launched. -/
def openAuditPrefix (st : AuditorState) (contractAddress : JSString) : PrefixResult :=
  let norm := toLowerCase contractAddress
  if norm ∈ st.auditedContracts then PrefixResult.skip SkipReason.alreadyAudited st
  else if norm ∈ st.auditingContracts then PrefixResult.skip SkipReason.auditInProgress st
  else
    let p := isAudited st contractAddress
    if p.1 then
      PrefixResult.skip SkipReason.alreadyAudited
        { p.2 with auditedContracts := setAdd p.2.auditedContracts norm }
    else
      PrefixResult.proceed
        { p.2 with auditingContracts := setAdd p.2.auditingContracts norm }

/-- One `AuditorPool` slot: the wrapper object
`{ id, key, auditor, isAvailable, lastUsed, totalAudits }` (the `key`
prefix string and the wrapped auditor are irrelevant to scheduling and
omitted). `lastUsed` is a `Date.now()` timestamp. -/
structure AuditorSlot where
  id : Nat
  isAvailable : Bool
  lastUsed : Int
  totalAudits : Nat
deriving DecidableEq

/-- The pool's rate-limit delay `minDelayBetweenAudits` (1000 ms). -/
def minDelayBetweenAudits : Int := 1000

/-- The eligibility filter of `AuditorPool.getAvailableAuditor`:
`a.isAvailable && now - a.lastUsed >= minDelayBetweenAudits`. -/
def eligibleSlot (minDelay now : Int) (a : AuditorSlot) : Bool :=
  a.isAvailable && decide (minDelay ≤ now - a.lastUsed)

/-- The `reduce` of `getAvailableAuditor`: fold keeping the slot with the
strictly smaller `lastUsed` (first encountered wins ties). -/
def pickOldest (h : AuditorSlot) (t : List AuditorSlot) : AuditorSlot :=
  t.foldl (fun least current => if current.lastUsed < least.lastUsed then current else least) h

/-- One successful poll iteration of `AuditorPool.getAvailableAuditor`:
filter the eligible slots, pick the least-recently-used one, mark it
busy and stamp `lastUsed := now`. Returns `none` when no slot is
eligible (the loop then sleeps and retries). The selected slot object is
mutated in place; slot ids are unique (they are array indices), so the
mutation is modelled as an id-directed map. -/
def getAvailableAuditorOnce (pool : List AuditorSlot) (minDelay now : Int) :
    Option (AuditorSlot × List AuditorSlot) :=
  match pool.filter (eligibleSlot minDelay now) with
  | [] => none
  | h :: t =>
      let sel := pickOldest h t
      let sel2 := { sel with isAvailable := false, lastUsed := now }
      some (sel2, pool.map (fun a => if a.id = sel.id then sel2 else a))

/-- `AuditorPool.releaseAuditor(auditorId)`: `find` the first slot with
that id and mutate it: `isAvailable := true`, `totalAudits++`. -/
def releaseAuditor : List AuditorSlot → Nat → List AuditorSlot
  | [], _ => []
  | a :: rest, auditorId =>
      if a.id = auditorId then
        { a with isAvailable := true, totalAudits := a.totalAudits + 1 } :: rest
      else a :: releaseAuditor rest auditorId

/-- Scheduler-level state of `AuditorPool.auditContract` dispatches.
`audited` abstracts the ids for which the pool's `isAudited` file check
answers true; `locked` is the pool's `auditingContracts` lock set;
`pending` holds the tasks that passed the check-then-add but have not
entered the inner audit call yet (they are awaiting
`getAvailableAuditor` or the double-check); `analyzing` holds the ids
with an inner audit (Analyze) invocation in flight. -/
structure DispatchState where
  audited : Finset JSString
  locked : Finset JSString
  pending : Multiset JSString
  analyzing : Multiset JSString
deriving DecidableEq

/-- Result of the synchronous prefix of `AuditorPool.auditContract`. -/
inductive DResult where
  | skippedAudited : DResult
  | skippedInProgress : DResult
  | launched : DResult
deriving DecidableEq

/-- The synchronous prefix of `AuditorPool.auditContract` (lines 85-101):
`isAudited` skip, then the `auditingContracts.has` skip, then the lock
acquisition `auditingContracts.add` before the task awaits an auditor.
JavaScript runs this prefix atomically (no `await` inside it). -/
def requestDispatch (s : DispatchState) (contractAddress : JSString) : DResult × DispatchState :=
  let norm := toLowerCase contractAddress
  if norm ∈ s.audited then (DResult.skippedAudited, s)
  else if norm ∈ s.locked then (DResult.skippedInProgress, s)
  else (DResult.launched,
    { s with locked := insert norm s.locked, pending := norm ::ₘ s.pending })

/-- Interleaving semantics of the pool dispatcher: each step is one
scheduler-atomic segment of `AuditorPool.auditContract`. A pending task
either enters the inner audit call (`beginAnalyze`, after its
double-check failed to find a record) or skips out through the `finally`
(`skipAfterAcquire`, double-check hit); a finishing audit runs the
`finally` (`finish`): lock entry removed, auditor released. The inner
auditor may mark ids audited at any time (`markAudited`). -/
inductive DStep : DispatchState → DispatchState → Prop
  | request (s : DispatchState) (a : JSString) : DStep s (requestDispatch s a).2
  | beginAnalyze (s : DispatchState) (n : JSString) (h : n ∈ s.pending) :
      DStep s { s with pending := s.pending.erase n, analyzing := n ::ₘ s.analyzing }
  | skipAfterAcquire (s : DispatchState) (n : JSString) (h : n ∈ s.pending) :
      DStep s { s with pending := s.pending.erase n, locked := s.locked.erase n }
  | finish (s : DispatchState) (n : JSString) (h : n ∈ s.analyzing) :
      DStep s { s with analyzing := s.analyzing.erase n, locked := s.locked.erase n }
  | markAudited (s : DispatchState) (n : JSString) :
      DStep s { s with audited := insert n s.audited }

/-- The pool starts with empty lock set and no tasks. -/
def DInit : DispatchState := ⟨∅, ∅, 0, 0⟩

/-- States reachable from startup by interleaved dispatch steps. -/
def DReachable (s : DispatchState) : Prop := Relation.ReflTransGen DStep DInit s

/-- Lock-set invariant: per id there is at most one live task (pending
or analyzing), and a live task holds the lock-set entry for its id. -/
def LockInv (s : DispatchState) : Prop :=
  ∀ n, s.pending.count n + s.analyzing.count n ≤ 1 ∧
       (0 < s.pending.count n + s.analyzing.count n → n ∈ s.locked)

/-- `AuditStatistics.stats` counter fields (the `history` list and the
timestamp are irrelevant to the snapshot arithmetic). -/
structure Stats where
  totalFetched : Nat
  totalAudited : Nat
  withVulnerabilities : Nat
  withoutVulnerabilities : Nat
  failed : Nat
deriving DecidableEq

/-- `AuditStatistics` default statistics (all counters zero). -/
def defaultStats : Stats := ⟨0, 0, 0, 0, 0⟩

/-- `AuditStatistics.incrementFetched`. -/
def incrementFetched (s : Stats) : Stats := { s with totalFetched := s.totalFetched + 1 }

/-- `AuditStatistics.recordAudit(hasVulnerabilities)`. -/
def recordAudit (s : Stats) (hasVulnerabilities : Bool) : Stats :=
  if hasVulnerabilities then
    { s with totalAudited := s.totalAudited + 1,
             withVulnerabilities := s.withVulnerabilities + 1 }
  else
    { s with totalAudited := s.totalAudited + 1,
             withoutVulnerabilities := s.withoutVulnerabilities + 1 }

/-- `AuditStatistics.recordAuditFailure`. -/
def recordAuditFailure (s : Stats) : Stats :=
  { s with totalAudited := s.totalAudited + 1, failed := s.failed + 1 }

/-- The numeric fields of the `AuditStatistics.getStats` snapshot (the
percentage strings are presentation only). `pendingAudit` is the raw JS
subtraction `totalFetched - totalAudited`, which can be negative. -/
structure StatsSnapshot where
  totalFetched : Nat
  totalAudited : Nat
  failed : Nat
  pendingAudit : Int
deriving DecidableEq

/-- `AuditStatistics.getStats`: spreads the counters and computes
`pendingAudit = totalFetched - totalAudited` with no lower bound. -/
def getStats (s : Stats) : StatsSnapshot :=
  { totalFetched := s.totalFetched,
    totalAudited := s.totalAudited,
    failed := s.failed,
    pendingAudit := (s.totalFetched : Int) - (s.totalAudited : Int) }

/-! Concrete fixtures used by counterexamples and witnesses. -/

/-- The address "0xa" as code units. -/
def addrA : JSString := [48, 120, 97]

/-- The address "0xA" (uppercase tail) as code units. -/
def addrAUpper : JSString := [48, 120, 65]

/-- A terminal (non-failed) stored record. -/
def succRecA : AuditRecord :=
  { hasVulnerabilities := some false, vulnerabilities := [], auditedAt := some 1,
    failed := false, errorMessage := none }

/-- A store state with no in-memory entries and no backing files. -/
def stEmpty : AuditorState := ⟨[], [], none, []⟩

/-- A store whose main file holds one terminal record for `addrA`. -/
def stOneRec : AuditorState :=
  ⟨[], [], some (StoreFile.objFmt [(addrA, succRecA)]), []⟩

/-- A store with one well-formed main-file record and one malformed
shard file. -/
def stMalformedShard : AuditorState :=
  ⟨[], [], some (StoreFile.objFmt [(addrA, succRecA)]), [StoreFile.malformed]⟩

/-- C10: the statistics snapshot computes `pendingAudit` as the raw
difference `totalFetched - totalAudited` with no lower bound, so whenever
more audits have been recorded than fetches counted, `getStats` returns a
negative `pendingAudit`. -/
theorem getStats_pendingAudit_negative (s : Stats) (h : s.totalFetched < s.totalAudited) :
    (getStats s).pendingAudit < 0 := by
  simp only [getStats]
  omega

/-- C10 witness: recording an audit for an item never counted as fetched
drives `totalAudited` above `totalFetched` and `pendingAudit` below 0. -/
theorem getStats_pendingAudit_negative_witness :
    (getStats (recordAudit defaultStats false)).pendingAudit < 0 :=
  getStats_pendingAudit_negative (recordAudit defaultStats false) (by decide)

/-- C8: `releaseAuditor(slotId)` sets the matching slot's busy flag to
false (`isAvailable := true`), increments only its `totalAudits`, leaves
its `lastUsed` rate-limit clock unchanged, and leaves every other slot
unchanged. -/
theorem releaseAuditor_frame (p1 : List AuditorSlot) (a : AuditorSlot) (p2 : List AuditorSlot)
    (auditorId : Nat) (ha : a.id = auditorId) (hp : ∀ b ∈ p1, b.id ≠ auditorId) :
    releaseAuditor (p1 ++ a :: p2) auditorId =
      p1 ++ { a with isAvailable := true, totalAudits := a.totalAudits + 1 } :: p2 ∧
    ({ a with isAvailable := true, totalAudits := a.totalAudits + 1 } : AuditorSlot).lastUsed
      = a.lastUsed := by
  refine ⟨?_, rfl⟩
  induction p1 with
  | nil => simp [releaseAuditor, ha]
  | cons b rest ih =>
      have hb : ¬ b.id = auditorId := hp b (by simp)
      simp only [List.cons_append, releaseAuditor, if_neg hb, List.append_eq]
      rw [ih (fun c hc => hp c (List.mem_cons_of_mem b hc))]

/-- C8 witness: releasing slot 1 in a three-slot pool. -/
theorem releaseAuditor_frame_witness :
    releaseAuditor [⟨0, false, 5, 2⟩, ⟨1, false, 7, 3⟩, ⟨2, true, 9, 4⟩] 1 =
      [⟨0, false, 5, 2⟩, ⟨1, true, 7, 4⟩, ⟨2, true, 9, 4⟩] ∧
    (⟨1, true, 7, 4⟩ : AuditorSlot).lastUsed = (⟨1, false, 7, 3⟩ : AuditorSlot).lastUsed :=
  releaseAuditor_frame [⟨0, false, 5, 2⟩] ⟨1, false, 7, 3⟩ [⟨2, true, 9, 4⟩] 1
    (by decide) (by decide)

/-- C2 counterexample: the store holds a terminal (non-failed) record for
`addrA`, yet `recordAuditResult` with `failed = true` replaces it with a
failed record — the overwrite guard `auditedData[addr] && !failed` is
bypassed whenever the incoming write is failed, so the stored record is
not unchanged. -/
theorem recordAuditResult_overwrites_terminal_cex :
    objGet (parsedData stOneRec.mainFile) (toLowerCase addrA) = some succRecA ∧
    succRecA.failed = false ∧
    (objGet (parsedData (recordAuditResult stOneRec addrA false [] true (some [101]) 9).mainFile)
        (toLowerCase addrA)).map AuditRecord.failed = some true ∧
    objGet (parsedData (recordAuditResult stOneRec addrA false [] true (some [101]) 9).mainFile)
        (toLowerCase addrA) ≠ some succRecA := by decide

/-- C2 amended: the overwrite protection only covers non-failed writes —
for every store whose parsed record for the id is non-failed, a
`recordAuditResult` call with `failed = false` is skipped and the whole
state is unchanged; a call with `failed = true` bypasses the guard and
overwrites the record (as the counterexample shows). -/
theorem recordAuditResult_skip_nonfailed (st : AuditorState) (address : JSString)
    (hv : Bool) (vn : List JSString) (em : Option JSString) (now : Nat)
    (r : AuditRecord)
    (hr : objGet (parsedData st.mainFile) (toLowerCase address) = some r)
    (hrf : r.failed = false) :
    recordAuditResult st address hv vn false em now = st := by
  have hs : skipWrite st (toLowerCase address) false = true := by
    simp [skipWrite, hr, hrf]
  unfold recordAuditResult recordAuditResultFallible
  simp [hs]

/-- C2 amended witness: a non-failed write over the terminal record of
`stOneRec` leaves the state unchanged. -/
theorem recordAuditResult_skip_nonfailed_witness :
    recordAuditResult stOneRec addrA true [] false none 5 = stOneRec :=
  recordAuditResult_skip_nonfailed stOneRec addrA true [] none 5 succRecA
    (by decide) (by decide)

/-- C3: evaluating the code at the failing input — after the catch branch
of a failed (retryable) audit calls
`recordAuditResult(addr, false, [], true, msg)` on a previously empty
store, the stored record is failed, yet `isAudited` answers `true` both
in the same process (the id was re-added to the in-memory set) and after
a restart with a fresh in-memory set (the record's mere presence in the
file is treated as audited), so the item never re-enters discovery. -/
theorem failed_retryable_still_terminal :
    ((objGet (parsedData (recordAuditResult stEmpty addrA false [] true (some [101]) 3).mainFile)
        (toLowerCase addrA)).map AuditRecord.failed = some true) ∧
    (isAudited (recordAuditResult stEmpty addrA false [] true (some [101]) 3) addrA).1 = true ∧
    (isAudited ⟨[], [], (recordAuditResult stEmpty addrA false [] true (some [101]) 3).mainFile, []⟩
        addrA).1 = true := by decide

/-- C5 counterexample: when the backing-file write raises, both
`recordAuditResult` and `saveAuditedContracts` make exactly one write
attempt (no synchronous retry) and surface no error to the caller (the
catch swallows it), contradicting retried-once-then-surfaced. -/
theorem write_failure_not_retried_cex :
    (recordAuditResultFallible stEmpty addrA true [] false none 0 true).2.1 = 1 ∧
    (recordAuditResultFallible stEmpty addrA true [] false none 0 true).2.2 = false ∧
    ¬ ((recordAuditResultFallible stEmpty addrA true [] false none 0 true).2.1 = 2 ∧
       (recordAuditResultFallible stEmpty addrA true [] false none 0 true).2.2 = true) ∧
    (saveAuditedContractsFallible stEmpty true).2.1 = 1 ∧
    (saveAuditedContractsFallible stEmpty true).2.2 = false := by decide

/-- C5 amended: a failing store write is attempted at most once, the
exception is caught and logged, no error is surfaced to the caller, and
the backing file is left unchanged (though `recordAuditResult` has
already added the id to the in-memory set on the write path). -/
theorem write_failure_swallowed (st : AuditorState) (address : JSString) (hv : Bool)
    (vn : List JSString) (failed : Bool) (em : Option JSString) (now : Nat) :
    (recordAuditResultFallible st address hv vn failed em now true).2.1 ≤ 1 ∧
    (recordAuditResultFallible st address hv vn failed em now true).2.2 = false ∧
    (recordAuditResultFallible st address hv vn failed em now true).1.mainFile = st.mainFile ∧
    (saveAuditedContractsFallible st true).2.1 = 1 ∧
    (saveAuditedContractsFallible st true).2.2 = false ∧
    (saveAuditedContractsFallible st true).1 = st := by
  cases h : skipWrite st (toLowerCase address) failed <;>
    simp [recordAuditResultFallible, saveAuditedContractsFallible, h]

/-- The normalized ids the main file contributes to `Load`. -/
def mainKeys : Option StoreFile → List JSString
  | some (StoreFile.arrayFmt addrs) => addrs.map toLowerCase
  | some (StoreFile.objFmt es) => (es.map Prod.fst).map toLowerCase
  | _ => []

/-- The normalized ids one shard file contributes to `Load` (array-format
shards are ignored by the loader). -/
def shardKeys : StoreFile → List JSString
  | StoreFile.objFmt es => (es.map Prod.fst).map toLowerCase
  | _ => []

theorem mem_addAllLower (addrs : List JSString) (acc : List JSString) (k : JSString) :
    k ∈ addAllLower acc addrs ↔ k ∈ acc ∨ k ∈ addrs.map toLowerCase := by
  induction addrs generalizing acc with
  | nil => simp [addAllLower]
  | cons a rest ih =>
      show k ∈ addAllLower (setAdd acc (toLowerCase a)) rest ↔ _
      rw [ih, mem_setAdd]
      simp only [List.map_cons, List.mem_cons]
      tauto

theorem loadShardsAux_malformed (shards : List StoreFile) (acc : List JSString)
    (h : StoreFile.malformed ∈ shards) : loadShardsAux acc shards = none := by
  induction shards generalizing acc with
  | nil => cases h
  | cons f rest ih =>
      cases f with
      | malformed => rfl
      | arrayFmt addrs =>
          have : StoreFile.malformed ∈ rest := by
            rcases List.mem_cons.mp h with h1 | h1
            · cases h1
            · exact h1
          exact ih _ this
      | objFmt es =>
          have : StoreFile.malformed ∈ rest := by
            rcases List.mem_cons.mp h with h1 | h1
            · cases h1
            · exact h1
          exact ih _ this

theorem loadShardsAux_wellformed (shards : List StoreFile) (acc : List JSString)
    (h : StoreFile.malformed ∉ shards) :
    ∃ r, loadShardsAux acc shards = some r ∧
      ∀ k, k ∈ r ↔ k ∈ acc ∨ k ∈ (shards.map shardKeys).flatten := by
  induction shards generalizing acc with
  | nil => exact ⟨acc, rfl, by simp⟩
  | cons f rest ih =>
      have hrest : StoreFile.malformed ∉ rest := fun hr => h (List.mem_cons_of_mem f hr)
      cases f with
      | malformed => exact absurd (List.mem_cons_self _ _) h
      | arrayFmt addrs =>
          obtain ⟨r, hr, hmem⟩ := ih acc hrest
          exact ⟨r, hr, fun k => by rw [hmem k]; simp [shardKeys]⟩
      | objFmt es =>
          obtain ⟨r, hr, hmem⟩ := ih (addAllLower acc (es.map Prod.fst)) hrest
          refine ⟨r, hr, fun k => ?_⟩
          rw [hmem k, mem_addAllLower]
          simp only [List.map_cons, List.flatten_cons, shardKeys, List.mem_append]
          tauto

/-- C6 counterexample: the main file holds a well-formed record for
`addrA`, but one malformed shard file makes `loadAuditedContracts` abort
the whole load and reset the in-memory index to empty — it does not skip
only the malformed part and keep the well-formed records. -/
theorem load_aborts_on_malformed_cex :
    stMalformedShard.mainFile = some (StoreFile.objFmt [(addrA, succRecA)]) ∧
    (loadAuditedContracts stMalformedShard).auditedContracts = [] ∧
    addrA ∉ (loadAuditedContracts stMalformedShard).auditedContracts := by decide

/-- C6 amended: `Load` with no backing files yields an empty index, and
with well-formed files it loads exactly the normalized keys of the
primary file and of every object-format overflow shard; but a malformed
file anywhere (primary or shard) throws, and the catch resets the whole
in-memory index to empty instead of skipping just the malformed record. -/
theorem load_tolerance_amended (st : AuditorState) :
    (st.mainFile = none ∧ st.shardFiles = [] →
        (loadAuditedContracts st).auditedContracts = []) ∧
    (st.mainFile = some StoreFile.malformed ∨ StoreFile.malformed ∈ st.shardFiles →
        (loadAuditedContracts st).auditedContracts = []) ∧
    (st.mainFile ≠ some StoreFile.malformed → StoreFile.malformed ∉ st.shardFiles →
        ∀ k, k ∈ (loadAuditedContracts st).auditedContracts ↔
          k ∈ mainKeys st.mainFile ∨ k ∈ (st.shardFiles.map shardKeys).flatten) := by
  refine ⟨?_, ?_, ?_⟩
  · rintro ⟨h1, h2⟩
    simp [loadAuditedContracts, h1, h2, loadShardsAux]
  · intro h
    rcases h with h | h
    · simp [loadAuditedContracts, h]
    · unfold loadAuditedContracts
      cases hm : st.mainFile with
      | none => simp [loadShardsAux_malformed _ _ h]
      | some f =>
          cases f with
          | malformed => simp
          | arrayFmt addrs => simp [loadShardsAux_malformed _ _ h]
          | objFmt es => simp [loadShardsAux_malformed _ _ h]
  · intro h1 h2 k
    unfold loadAuditedContracts
    cases hm : st.mainFile with
    | none =>
        obtain ⟨r, hr, hmem⟩ := loadShardsAux_wellformed st.shardFiles [] h2
        rw [hm] at *
        simp only [hr, Option.getD_some]
        rw [hmem k]
        simp [mainKeys]
    | some f =>
        cases f with
        | malformed => exact absurd hm h1
        | arrayFmt addrs =>
            obtain ⟨r, hr, hmem⟩ := loadShardsAux_wellformed st.shardFiles
              (addAllLower [] addrs) h2
            simp only [hr, Option.getD_some]
            rw [hmem k, mem_addAllLower]
            simp [mainKeys]
        | objFmt es =>
            obtain ⟨r, hr, hmem⟩ := loadShardsAux_wellformed st.shardFiles
              (addAllLower [] (es.map Prod.fst)) h2
            simp only [hr, Option.getD_some]
            rw [hmem k, mem_addAllLower]
            simp [mainKeys]

/-- C6 amended witness: the three conjuncts at concrete stores — no
files at all, a malformed shard, and a well-formed one-record store. -/
theorem load_tolerance_amended_witness :
    (loadAuditedContracts stEmpty).auditedContracts = [] ∧
    (loadAuditedContracts stMalformedShard).auditedContracts = [] ∧
    (addrA ∈ (loadAuditedContracts stOneRec).auditedContracts ↔
      addrA ∈ mainKeys stOneRec.mainFile ∨
      addrA ∈ (stOneRec.shardFiles.map shardKeys).flatten) :=
  ⟨(load_tolerance_amended stEmpty).1 ⟨rfl, rfl⟩,
   (load_tolerance_amended stMalformedShard).2.1 (Or.inr (by decide)),
   (load_tolerance_amended stOneRec).2.2 (by decide) (by decide) addrA⟩

/-- Whether the main file holds a record for the normalized id, in the
formats `isAudited` recognizes: legacy array membership or object key. -/
def mainFileHasRecord : Option StoreFile → JSString → Bool
  | some (StoreFile.arrayFmt addrs), norm => decide (norm ∈ addrs)
  | some (StoreFile.objFmt es), norm => (objGet es norm).isSome
  | _, _ => false

/-- Whether some overflow shard file holds the normalized id as an
object key (the only shard format the scan recognizes). -/
def someShardHasRecord (shards : List StoreFile) (norm : JSString) : Bool :=
  shards.any fun f =>
    match f with
    | StoreFile.objFmt es => (objGet es norm).isSome
    | _ => false

/-- Whether a record for the normalized id exists on disk at all. -/
def recordOnDisk (st : AuditorState) (norm : JSString) : Bool :=
  mainFileHasRecord st.mainFile norm || someShardHasRecord st.shardFiles norm

theorem shardScan_wellformed (st : AuditorState) (norm : JSString) (shards : List StoreFile)
    (h : StoreFile.malformed ∉ shards) :
    shardScan st norm shards =
      if someShardHasRecord shards norm then (true, addAudited st norm) else (false, st) := by
  induction shards with
  | nil => simp [shardScan, someShardHasRecord]
  | cons f rest ih =>
      have hrest : StoreFile.malformed ∉ rest := fun hr => h (List.mem_cons_of_mem f hr)
      cases f with
      | malformed => exact absurd (List.mem_cons_self _ _) h
      | arrayFmt addrs =>
          rw [show shardScan st norm (StoreFile.arrayFmt addrs :: rest) = shardScan st norm rest
            from rfl, ih hrest]
          simp [someShardHasRecord]
      | objFmt es =>
          cases hg : (objGet es norm).isSome with
          | true => simp [shardScan, hg, someShardHasRecord]
          | false =>
              rw [show shardScan st norm (StoreFile.objFmt es :: rest) =
                    if (objGet es norm).isSome then (true, addAudited st norm)
                    else shardScan st norm rest from rfl,
                  hg, if_neg (by simp), ih hrest]
              simp [someShardHasRecord, hg]

theorem isAuditedNorm_disk (st : AuditorState) (norm : JSString)
    (hwf1 : st.mainFile ≠ some StoreFile.malformed)
    (hwf2 : StoreFile.malformed ∉ st.shardFiles)
    (hmem : norm ∉ st.auditedContracts) :
    isAuditedNorm st norm =
      if recordOnDisk st norm then (true, addAudited st norm) else (false, st) := by
  unfold isAuditedNorm recordOnDisk
  rw [if_neg hmem]
  cases hm : st.mainFile with
  | none =>
      show shardScan st norm st.shardFiles = _
      rw [shardScan_wellformed st norm _ hwf2]
      simp [mainFileHasRecord]
  | some f =>
      cases f with
      | malformed => exact absurd hm hwf1
      | arrayFmt addrs =>
          show (if norm ∈ addrs then (true, addAudited st norm)
                else shardScan st norm st.shardFiles) = _
          by_cases ha : norm ∈ addrs
          · simp [ha, mainFileHasRecord]
          · rw [if_neg ha, shardScan_wellformed st norm _ hwf2]
            simp [mainFileHasRecord, ha]
      | objFmt es =>
          show (if (objGet es norm).isSome then (true, addAudited st norm)
                else shardScan st norm st.shardFiles) = _
          cases hg : (objGet es norm).isSome with
          | true => simp [hg, mainFileHasRecord]
          | false =>
              rw [if_neg (by simp [hg]), shardScan_wellformed st norm _ hwf2]
              simp [mainFileHasRecord, hg]

/-- C7 counterexample: the claim as stated is unconditional, but when a
malformed shard file is read before the record-bearing shard, the throw
lands in the catch of `isAudited` and the function falls through to
`return false` — here the record for `addrA` sits in the second shard,
the id is absent from the in-memory index, a record for it exists on
disk, and `isAudited` still answers `false` with the state unchanged. -/
theorem isAudited_shard_behind_malformed_cex :
    toLowerCase addrA ∉
      (⟨[], [], none, [StoreFile.malformed, StoreFile.objFmt [(addrA, succRecA)]]⟩
        : AuditorState).auditedContracts ∧
    recordOnDisk ⟨[], [], none, [StoreFile.malformed, StoreFile.objFmt [(addrA, succRecA)]]⟩
      (toLowerCase addrA) = true ∧
    (isAudited ⟨[], [], none, [StoreFile.malformed, StoreFile.objFmt [(addrA, succRecA)]]⟩
        addrA).1 = false ∧
    isAudited ⟨[], [], none, [StoreFile.malformed, StoreFile.objFmt [(addrA, succRecA)]]⟩
        addrA =
      (false, ⟨[], [], none, [StoreFile.malformed, StoreFile.objFmt [(addrA, succRecA)]]⟩) := by
  decide

/-- C7 amended: when the id is absent from the in-memory index and the
backing files are well-formed (the primary file is not malformed and no
shard is malformed — a malformed file makes the read throw into the
catch and `isAudited` return `false` regardless of records in later
shards, as the counterexample shows), `isAudited` returns `true` and
caches the normalized id in the in-memory index precisely when a record
for it exists in the primary file (legacy array member or object key)
or as an object key of some numbered overflow shard; with no record
anywhere it returns `false` and leaves the state unchanged. -/
theorem isAudited_file_fallback (st : AuditorState) (address : JSString)
    (hwf1 : st.mainFile ≠ some StoreFile.malformed)
    (hwf2 : StoreFile.malformed ∉ st.shardFiles)
    (hmem : toLowerCase address ∉ st.auditedContracts) :
    (recordOnDisk st (toLowerCase address) = true →
        (isAudited st address).1 = true ∧
        toLowerCase address ∈ (isAudited st address).2.auditedContracts) ∧
    (recordOnDisk st (toLowerCase address) = false →
        isAudited st address = (false, st)) := by
  unfold isAudited
  rw [isAuditedNorm_disk st (toLowerCase address) hwf1 hwf2 hmem]
  constructor
  · intro h
    rw [if_pos h]
    exact ⟨rfl, mem_setAdd_self _ _⟩
  · intro h
    rw [h]
    simp

/-- C7 amended witness: a store whose only record for `addrA` sits in the main
file (id not in memory) answers `true` and caches the id; the empty
store answers `false`. -/
theorem isAudited_file_fallback_witness :
    ((isAudited stOneRec addrA).1 = true ∧
      toLowerCase addrA ∈ (isAudited stOneRec addrA).2.auditedContracts) ∧
    isAudited stEmpty addrA = (false, stEmpty) :=
  ⟨(isAudited_file_fallback stOneRec addrA (by decide) (by decide) (by decide)).1 (by decide),
   (isAudited_file_fallback stEmpty addrA (by decide) (by decide) (by decide)).2 (by decide)⟩

theorem objGet_foldl_legacy (addrs : List JSString) (m : List (JSString × AuditRecord))
    (k : JSString) :
    objGet (addrs.foldl (fun m2 addr => objSet m2 addr legacyRecord) m) k =
      if k ∈ addrs then some legacyRecord else objGet m k := by
  induction addrs generalizing m with
  | nil => simp
  | cons a rest ih =>
      show objGet (rest.foldl _ (objSet m a legacyRecord)) k = _
      rw [ih (objSet m a legacyRecord), objGet_objSet]
      by_cases hr : k ∈ rest
      · simp [hr]
      · by_cases hak : a = k
        · simp [hr, hak]
        · have hka : ¬ k = a := fun hka => hak hka.symm
          have : k ∉ (a :: rest) := by simp [List.mem_cons, hr, hka]
          simp [hr, hak, this]

theorem objGet_convertLegacy (addrs : List JSString) (k : JSString) :
    objGet (convertLegacy addrs) k = if k ∈ addrs then some legacyRecord else none := by
  unfold convertLegacy
  rw [objGet_foldl_legacy]
  rfl

theorem isAuditedNorm_true_of_mem (st : AuditorState) (norm : JSString)
    (h : norm ∈ st.auditedContracts) : (isAuditedNorm st norm).1 = true := by
  simp [isAuditedNorm, h]

theorem isAuditedNorm_true_of_record (st : AuditorState) (norm : JSString)
    (h : (objGet (parsedData st.mainFile) norm).isSome = true) :
    (isAuditedNorm st norm).1 = true := by
  by_cases hm : norm ∈ st.auditedContracts
  · exact isAuditedNorm_true_of_mem st norm hm
  · unfold isAuditedNorm
    rw [if_neg hm]
    cases hf : st.mainFile with
    | none => rw [hf] at h; simp [parsedData, objGet] at h
    | some f =>
        cases f with
        | malformed => rw [hf] at h; simp [parsedData, objGet] at h
        | arrayFmt addrs =>
            rw [hf] at h
            have hmem2 : norm ∈ addrs := by
              simp only [parsedData] at h
              rw [objGet_convertLegacy] at h
              by_contra hno
              rw [if_neg hno] at h
              simp at h
            show (if norm ∈ addrs then (true, addAudited st norm)
                  else shardScan st norm st.shardFiles).1 = true
            rw [if_pos hmem2]
        | objFmt es =>
            rw [hf] at h
            simp only [parsedData] at h
            show (if (objGet es norm).isSome then (true, addAudited st norm)
                  else shardScan st norm st.shardFiles).1 = true
            rw [if_pos h]

/-- C9: the dedup-store operations are invariant under letter case —
`isAudited` answers the same on an address and on its lowercase form,
and after any completed `recordAuditResult` call for an address (skip
path, write path, or write path with a failing file write), `isAudited`
answers `true` for every address differing only in letter case. -/
theorem addresses_case_insensitive :
    (∀ st a, isAudited st a = isAudited st (toLowerCase a)) ∧
    (∀ st a hv vn failed em now wf b, toLowerCase b = toLowerCase a →
        (isAudited (recordAuditResultFallible st a hv vn failed em now wf).1 b).1 = true) := by
  constructor
  · intro st a
    unfold isAudited
    rw [toLowerCase_idem]
  · intro st a hv vn failed em now wf b hb
    show (isAuditedNorm _ (toLowerCase b)).1 = true
    rw [hb]
    cases hsk : skipWrite st (toLowerCase a) failed with
    | true =>
        have hst : (recordAuditResultFallible st a hv vn failed em now wf).1 = st := by
          simp [recordAuditResultFallible, hsk]
        rw [hst]
        apply isAuditedNorm_true_of_record
        unfold skipWrite at hsk
        cases hg : objGet (parsedData st.mainFile) (toLowerCase a) with
        | none => rw [hg] at hsk; simp at hsk
        | some ex => simp [hg]
    | false =>
        have hset : (recordAuditResultFallible st a hv vn failed em now wf).1.auditedContracts =
            setAdd st.auditedContracts (toLowerCase a) := by
          cases wf <;> simp [recordAuditResultFallible, hsk]
        apply isAuditedNorm_true_of_mem
        rw [hset]
        exact mem_setAdd_self _ _

/-- C9 witness: the uppercase spelling "0xA" and the lowercase "0xa" are
interchangeable for lookup, and after recording "0xA" the lowercase
spelling reads as audited. -/
theorem addresses_case_insensitive_witness :
    isAudited stOneRec addrAUpper = isAudited stOneRec (toLowerCase addrAUpper) ∧
    (isAudited (recordAuditResultFallible stEmpty addrAUpper true [] false none 4 false).1
        addrA).1 = true :=
  ⟨addresses_case_insensitive.1 stOneRec addrAUpper,
   addresses_case_insensitive.2 stEmpty addrAUpper true [] false none 4 false addrA (by decide)⟩

theorem pickOldest_mem (h : AuditorSlot) (t : List AuditorSlot) :
    pickOldest h t ∈ h :: t := by
  induction t generalizing h with
  | nil => simp [pickOldest]
  | cons c rest ih =>
      have hstep : pickOldest h (c :: rest) =
          pickOldest (if c.lastUsed < h.lastUsed then c else h) rest := rfl
      rw [hstep]
      have := ih (if c.lastUsed < h.lastUsed then c else h)
      rcases List.mem_cons.mp this with heq | hm
      · rw [heq]
        split <;> simp
      · exact List.mem_cons_of_mem h (List.mem_cons_of_mem c hm)

theorem pickOldest_le (h : AuditorSlot) (t : List AuditorSlot) :
    ∀ b ∈ h :: t, (pickOldest h t).lastUsed ≤ b.lastUsed := by
  induction t generalizing h with
  | nil =>
      intro b hb
      rcases List.mem_cons.mp hb with heq | hm
      · rw [heq]; exact le_refl _
      · cases hm
  | cons c rest ih =>
      intro b hb
      have hstep : pickOldest h (c :: rest) =
          pickOldest (if c.lastUsed < h.lastUsed then c else h) rest := rfl
      rw [hstep]
      have hle_h : (if c.lastUsed < h.lastUsed then c else h).lastUsed ≤ h.lastUsed := by
        split
        · exact le_of_lt (by assumption)
        · exact le_refl _
      have hle_c : (if c.lastUsed < h.lastUsed then c else h).lastUsed ≤ c.lastUsed := by
        split
        · exact le_refl _
        · exact le_of_not_lt (by assumption)
      have hhead := ih (if c.lastUsed < h.lastUsed then c else h)
        (if c.lastUsed < h.lastUsed then c else h) (List.mem_cons_self _ _)
      rcases List.mem_cons.mp hb with heq | hm
      · rw [heq]; exact le_trans hhead hle_h
      · rcases List.mem_cons.mp hm with heq2 | hm2
        · rw [heq2]; exact le_trans hhead hle_c
        · exact ih (if c.lastUsed < h.lastUsed then c else h) b (List.mem_cons_of_mem _ hm2)

/-- C4: a successful poll of `getAvailableAuditor` selects a slot that is
not busy and past the per-slot rate-limit delay, and among all eligible
slots it selects one with the oldest `lastUsed` timestamp; the selected
slot is returned marked busy with `lastUsed` stamped to the acquire
time, and the pool is updated only at that slot. -/
theorem getAvailableAuditor_fair (pool : List AuditorSlot) (minDelay now : Int)
    (sel2 : AuditorSlot) (pool2 : List AuditorSlot)
    (_hids : (pool.map AuditorSlot.id).Nodup)
    (h : getAvailableAuditorOnce pool minDelay now = some (sel2, pool2)) :
    ∃ sel ∈ pool,
      eligibleSlot minDelay now sel = true ∧
      (∀ b ∈ pool, eligibleSlot minDelay now b = true → sel.lastUsed ≤ b.lastUsed) ∧
      sel2 = { sel with isAvailable := false, lastUsed := now } ∧
      sel2.isAvailable = false ∧ sel2.lastUsed = now ∧
      pool2 = pool.map (fun a => if a.id = sel.id then sel2 else a) := by
  unfold getAvailableAuditorOnce at h
  cases hf : pool.filter (eligibleSlot minDelay now) with
  | nil => rw [hf] at h; cases h
  | cons hd tl =>
      rw [hf] at h
      have hsel : sel2 = { pickOldest hd tl with isAvailable := false, lastUsed := now } := by
        have := congrArg (fun o => Option.map Prod.fst o) h
        simpa using this.symm
      have hpool : pool2 = pool.map (fun a =>
          if a.id = (pickOldest hd tl).id then
            { pickOldest hd tl with isAvailable := false, lastUsed := now }
          else a) := by
        have := congrArg (fun o => Option.map Prod.snd o) h
        simpa using this.symm
      have hmemf : pickOldest hd tl ∈ pool.filter (eligibleSlot minDelay now) := by
        rw [hf]; exact pickOldest_mem hd tl
      refine ⟨pickOldest hd tl, List.mem_of_mem_filter hmemf,
        List.of_mem_filter hmemf, ?_, hsel, by rw [hsel], by rw [hsel], by rw [hpool, hsel]⟩
      intro b hb hbe
      have hbf : b ∈ pool.filter (eligibleSlot minDelay now) := List.mem_filter.mpr ⟨hb, hbe⟩
      rw [hf] at hbf
      exact pickOldest_le hd tl b hbf

/-- C4 witness: a two-slot pool where slot 1 is the least recently used
eligible slot; the poll picks it, marks it busy and stamps `lastUsed`. -/
theorem getAvailableAuditor_fair_witness :
    ∃ sel ∈ [(⟨0, true, 500, 3⟩ : AuditorSlot), ⟨1, true, 200, 1⟩],
      eligibleSlot 1000 2000 sel = true ∧
      (∀ b ∈ [(⟨0, true, 500, 3⟩ : AuditorSlot), ⟨1, true, 200, 1⟩],
          eligibleSlot 1000 2000 b = true → sel.lastUsed ≤ b.lastUsed) ∧
      (⟨1, false, 2000, 1⟩ : AuditorSlot) = { sel with isAvailable := false, lastUsed := 2000 } ∧
      (⟨1, false, 2000, 1⟩ : AuditorSlot).isAvailable = false ∧
      (⟨1, false, 2000, 1⟩ : AuditorSlot).lastUsed = 2000 ∧
      [(⟨0, true, 500, 3⟩ : AuditorSlot), ⟨1, false, 2000, 1⟩] =
        [(⟨0, true, 500, 3⟩ : AuditorSlot), ⟨1, true, 200, 1⟩].map
          (fun a => if a.id = sel.id then (⟨1, false, 2000, 1⟩ : AuditorSlot) else a) :=
  getAvailableAuditor_fair [⟨0, true, 500, 3⟩, ⟨1, true, 200, 1⟩] 1000 2000
    ⟨1, false, 2000, 1⟩ [⟨0, true, 500, 3⟩, ⟨1, false, 2000, 1⟩] (by decide) (by decide)

theorem shardScan_auditing (st : AuditorState) (norm : JSString) (shards : List StoreFile) :
    ((shardScan st norm shards).2).auditingContracts = st.auditingContracts := by
  induction shards with
  | nil => rfl
  | cons f rest ih =>
      cases f with
      | malformed => rfl
      | arrayFmt addrs => exact ih
      | objFmt es =>
          show ((if (objGet es norm).isSome then (true, addAudited st norm)
                 else shardScan st norm rest).2).auditingContracts = _
          split
          · rfl
          · exact ih

theorem fileCheck_auditing (st : AuditorState) (norm : JSString) (f : Option StoreFile) :
    ((fileCheck st norm f).2).auditingContracts = st.auditingContracts := by
  cases f with
  | none => exact shardScan_auditing st norm st.shardFiles
  | some g =>
      cases g with
      | malformed => rfl
      | arrayFmt addrs =>
          show ((if norm ∈ addrs then (true, addAudited st norm)
                 else shardScan st norm st.shardFiles).2).auditingContracts = _
          split
          · rfl
          · exact shardScan_auditing st norm st.shardFiles
      | objFmt es =>
          show ((if (objGet es norm).isSome then (true, addAudited st norm)
                 else shardScan st norm st.shardFiles).2).auditingContracts = _
          split
          · rfl
          · exact shardScan_auditing st norm st.shardFiles

theorem isAudited_auditing (st : AuditorState) (a : JSString) :
    ((isAudited st a).2).auditingContracts = st.auditingContracts := by
  unfold isAudited isAuditedNorm
  split
  · rfl
  · exact fileCheck_auditing st (toLowerCase a) st.mainFile

theorem lockInv_init : LockInv DInit :=
  fun n => ⟨by simp [DInit], by simp [DInit]⟩

theorem lockInv_step {s s2 : DispatchState} (hinv : LockInv s) (hstep : DStep s s2) :
    LockInv s2 := by
  cases hstep with
  | request a =>
      by_cases h1 : toLowerCase a ∈ s.audited
      · simpa [requestDispatch, h1] using hinv
      · by_cases h2 : toLowerCase a ∈ s.locked
        · simpa [requestDispatch, h1, h2] using hinv
        · have hz : s.pending.count (toLowerCase a) + s.analyzing.count (toLowerCase a) = 0 := by
            by_contra hnz
            exact h2 ((hinv (toLowerCase a)).2 (Nat.pos_of_ne_zero hnz))
          intro m
          simp only [requestDispatch, if_neg h1, if_neg h2]
          by_cases hm : m = toLowerCase a
          · subst hm
            refine ⟨?_, fun _ => Finset.mem_insert_self _ s.locked⟩
            rw [Multiset.count_cons_self]
            omega
          · rw [Multiset.count_cons_of_ne hm]
            refine ⟨(hinv m).1, fun hpos => Finset.mem_insert_of_mem ((hinv m).2 hpos)⟩
  | beginAnalyze n h =>
      intro m
      by_cases hm : m = n
      · subst hm
        have hc : 0 < s.pending.count m := Multiset.count_pos.mpr h
        have hb := (hinv m).1
        have hmem : m ∈ s.locked := (hinv m).2 (by omega)
        simp only [Multiset.count_erase_self, Multiset.count_cons_self]
        exact ⟨by omega, fun _ => hmem⟩
      · simp only [Multiset.count_erase_of_ne hm, Multiset.count_cons_of_ne hm]
        exact hinv m
  | skipAfterAcquire n h =>
      intro m
      by_cases hm : m = n
      · subst hm
        have hc : 0 < s.pending.count m := Multiset.count_pos.mpr h
        have hb := (hinv m).1
        simp only [Multiset.count_erase_self]
        exact ⟨by omega, fun hpos => absurd hpos (by omega)⟩
      · simp only [Multiset.count_erase_of_ne hm]
        exact ⟨(hinv m).1, fun hpos => Finset.mem_erase.mpr ⟨hm, (hinv m).2 hpos⟩⟩
  | finish n h =>
      intro m
      by_cases hm : m = n
      · subst hm
        have hc : 0 < s.analyzing.count m := Multiset.count_pos.mpr h
        have hb := (hinv m).1
        simp only [Multiset.count_erase_self]
        exact ⟨by omega, fun hpos => absurd hpos (by omega)⟩
      · simp only [Multiset.count_erase_of_ne hm]
        exact ⟨(hinv m).1, fun hpos => Finset.mem_erase.mpr ⟨hm, (hinv m).2 hpos⟩⟩
  | markAudited n =>
      intro m
      exact hinv m

theorem lockInv_reachable {s : DispatchState} (h : DReachable s) : LockInv s := by
  unfold DReachable at h
  induction h with
  | refl => exact lockInv_init
  | tail _ hstep ih => exact lockInv_step ih hstep

/-- C1: at-most-once dispatch. In every reachable scheduler state, per
id at most one Analyze invocation is in flight and any in-flight
invocation holds the Lock Set entry for its id; a pool dispatch
requested while the Lock Set already holds the normalized id returns a
skipped result without launching, and a launched dispatch has inserted
the id by check-then-add; likewise the inner
`OpenAIAuditor.auditContract` returns a skipped result unchanged when
`auditingContracts` holds the id, and on proceeding has inserted the id
into `auditingContracts` before the audit starts. -/
theorem at_most_once_dispatch :
    (∀ s, DReachable s → ∀ n, s.analyzing.count n ≤ 1 ∧ (n ∈ s.analyzing → n ∈ s.locked)) ∧
    (∀ s a, toLowerCase a ∈ s.locked →
        (requestDispatch s a).1 ≠ DResult.launched ∧ (requestDispatch s a).2 = s) ∧
    (∀ s a, (requestDispatch s a).1 = DResult.launched →
        toLowerCase a ∉ s.locked ∧
        (requestDispatch s a).2.locked = insert (toLowerCase a) s.locked ∧
        (requestDispatch s a).2.pending = toLowerCase a ::ₘ s.pending) ∧
    (∀ st a, toLowerCase a ∈ st.auditingContracts →
        ∃ r, openAuditPrefix st a = PrefixResult.skip r st) ∧
    (∀ st st2 a, openAuditPrefix st a = PrefixResult.proceed st2 →
        toLowerCase a ∉ st.auditingContracts ∧
        st2.auditingContracts = setAdd st.auditingContracts (toLowerCase a)) := by
  refine ⟨?_, ?_, ?_, ?_, ?_⟩
  · intro s hreach n
    have hinv := lockInv_reachable hreach n
    refine ⟨by omega, fun hmem => ?_⟩
    have : 0 < s.analyzing.count n := Multiset.count_pos.mpr hmem
    exact hinv.2 (by omega)
  · intro s a h
    by_cases h1 : toLowerCase a ∈ s.audited
    · simp [requestDispatch, h1]
    · simp [requestDispatch, h1, h]
  · intro s a h
    by_cases h1 : toLowerCase a ∈ s.audited
    · simp [requestDispatch, h1] at h
    · by_cases h2 : toLowerCase a ∈ s.locked
      · simp [requestDispatch, h1, h2] at h
      · exact ⟨h2, by simp [requestDispatch, h1, h2], by simp [requestDispatch, h1, h2]⟩
  · intro st a h
    by_cases h1 : toLowerCase a ∈ st.auditedContracts
    · exact ⟨SkipReason.alreadyAudited, by simp [openAuditPrefix, h1]⟩
    · exact ⟨SkipReason.auditInProgress, by simp [openAuditPrefix, h1, h]⟩
  · intro st st2 a h
    by_cases h1 : toLowerCase a ∈ st.auditedContracts
    · simp [openAuditPrefix, h1] at h
    · by_cases h2 : toLowerCase a ∈ st.auditingContracts
      · simp [openAuditPrefix, h1, h2] at h
      · refine ⟨h2, ?_⟩
        rw [openAuditPrefix] at h
        simp only [if_neg h1, if_neg h2] at h
        cases hp : (isAudited st a).1 with
        | true => rw [if_pos hp] at h; cases h
        | false =>
            rw [if_neg (by simp [hp])] at h
            cases h
            exact congrArg (fun l => setAdd l (toLowerCase a)) (isAudited_auditing st a)

/-- C1 witness: concrete instances of each conjunct — the initial state
is reachable and has no in-flight invocation; a request on a
locked-state pool is skipped unchanged; a request on the initial state
launches with the lock inserted; the inner prefix skips when the id is
in flight, and proceeding inserts it. -/
theorem at_most_once_dispatch_witness :
    (DInit.analyzing.count addrA ≤ 1 ∧ (addrA ∈ DInit.analyzing → addrA ∈ DInit.locked)) ∧
    ((requestDispatch ⟨∅, {addrA}, 0, 0⟩ addrA).1 ≠ DResult.launched ∧
      (requestDispatch ⟨∅, {addrA}, 0, 0⟩ addrA).2 = ⟨∅, {addrA}, 0, 0⟩) ∧
    (toLowerCase addrA ∉ DInit.locked ∧
      (requestDispatch DInit addrA).2.locked = insert (toLowerCase addrA) DInit.locked ∧
      (requestDispatch DInit addrA).2.pending = toLowerCase addrA ::ₘ DInit.pending) ∧
    (∃ r, openAuditPrefix ⟨[], [addrA], none, []⟩ addrA =
      PrefixResult.skip r ⟨[], [addrA], none, []⟩) ∧
    (toLowerCase addrA ∉ stEmpty.auditingContracts ∧
      (⟨[], [addrA], none, []⟩ : AuditorState).auditingContracts =
        setAdd stEmpty.auditingContracts (toLowerCase addrA)) :=
  ⟨at_most_once_dispatch.1 DInit Relation.ReflTransGen.refl addrA,
   at_most_once_dispatch.2.1 ⟨∅, {addrA}, 0, 0⟩ addrA (by decide),
   at_most_once_dispatch.2.2.1 DInit addrA (by decide),
   at_most_once_dispatch.2.2.2.1 ⟨[], [addrA], none, []⟩ addrA (by decide),
   at_most_once_dispatch.2.2.2.2 stEmpty ⟨[], [addrA], none, []⟩ addrA (by decide)⟩

end AuditBot
